import Mathlib

/-
Shallow embedding of the vkquick command-dispatch and argument-cutting core.

Strings are modelled as `List Char`.  Every cutter follows the shape of the
Python source: `cut_part` returns a pair of an optional value (`none` stands
for the `UnmatchedArgument` sentinel) and the remaining string.
-/

namespace Vkquick

abbrev Str := List Char

/-- Case folding used to model `re.IGNORECASE` over the alphabets that occur
in the alias sets of `bool_.py` (ASCII letters and Russian Cyrillic). -/
def caseFold (c : Char) : Char :=
  if 'A' ≤ c ∧ c ≤ 'Z' then Char.ofNat (c.toNat + 32)
  else if 'А' ≤ c ∧ c ≤ 'Я' then Char.ofNat (c.toNat + 32)
  else if c = 'Ё' then 'ё'
  else c

def foldStr (s : Str) : Str := s.map caseFold

/-- `foldPref p s` holds when `p` is a case-insensitive prefix of `s`:
the model of an anchored `re.match` of the literal alternative `p`. -/
def foldPref : Str → Str → Bool
  | [], _ => true
  | _ :: _, [] => false
  | a :: p, b :: s => caseFold a == caseFold b && foldPref p s

/-- Model of `re.match` on an alternation of literal alternatives
(`(?:a1|a2|...)` with `re.IGNORECASE`): Python's backtracking engine tries the
alternatives left to right at position 0 and commits to the first that
matches.  Returns the matching alternative and the remainder. -/
def firstAliasMatch (aliases : List Str) (s : Str) : Option (Str × Str) :=
  match aliases with
  | [] => none
  | a :: rest =>
    if foldPref a s then some (a, s.drop a.length) else firstAliasMatch rest s

/-- Modelled from the spec: `TextArgument.cut_part_lite` lives in
`vkquick/base/text_argument.py`, which is not part of the sources.  Per the
spec (§3, §4.1) a cutter consumes a matching prefix and yields the value plus
the unconsumed suffix, and on failure yields Unmatched together with the
exact original string. -/
def cutPartLite (aliases : List Str) (s : Str) : Option Str × Str :=
  match firstAliasMatch aliases s with
  | some (a, r) => (some (s.take a.length), r)
  | none => (none, s)

/-- The built-in True aliases of `Bool.__init__`, in source order
(the regex alternative `\+` denotes the literal plus sign). -/
def boolTrueStrs : List Str :=
  ["true".data, "1".data, "yes".data, "y".data, "да".data, "д".data,
   "истина".data, "+".data, "правда".data, "t".data, "on".data,
   "вкл".data, "enable".data]

/-- The built-in False aliases of `Bool.__init__`, in source order. -/
def boolFalseStrs : List Str :=
  ["false".data, "0".data, "no".data, "n".data, "нет".data, "н".data,
   "ложь".data, "-".data, "неправда".data, "f".data, "off".data,
   "выкл".data, "disable".data]

/-- The compiled state of a `Bool` text argument: its two alternation sets. -/
structure BoolMatcher where
  trueAliases : List Str
  falseAliases : List Str

/-- `Bool.__init__`: the extension aliases are appended after the built-in
ones (`true_values.extend(true_extension)`); no disjointness check is made. -/
def mkBool (trueExtension falseExtension : List Str) : BoolMatcher :=
  ⟨boolTrueStrs ++ trueExtension, boolFalseStrs ++ falseExtension⟩

/-- `Bool.cut_part`: try the true regex, then the false regex; on a match
return the boolean constant with the remainder; otherwise Unmatched with the
string returned by the failed false attempt (the original string). -/
def boolCutPart (m : BoolMatcher) (s : Str) : Option Bool × Str :=
  match cutPartLite m.trueAliases s with
  | (some _, r) => (some true, r)
  | (none, _) =>
    match cutPartLite m.falseAliases s with
    | (some _, r) => (some false, r)
    | (none, r) => (none, r)

/-- `a` matches a strictly shorter case-insensitive front part of `b`. -/
def properFoldPrefOf (a b : Str) : Bool :=
  decide (a.length < b.length) && foldPref a b

/-- No alternative of the list is shadowed by an earlier, strictly shorter
alternative: under this condition first-match coincides with longest-match. -/
def noShadow : List Str → Bool
  | [] => true
  | a :: rest => rest.all (fun b => !(properFoldPrefOf a b)) && noShadow rest

/-
The numeric matcher of `float_.py`.  Its pattern is
`[+|-]?\d*(?:\.\d+)` : an optional character of the class containing the
plus sign, the vertical bar and the hyphen, then a possibly empty digit run,
then a MANDATORY group of a dot followed by one or more digits.  For this
pattern Python's backtracking engine is equivalent to the deterministic
greedy parse below: shrinking the greedy `\d*` can never make the required
dot appear (the boundary character would still be a digit), and skipping the
optional sign cannot help either (the dot would then have to equal the sign
character).
-/

/-- Anchored match of the `Integer` pattern: returns the matched text and
the remainder, or `none` when the pattern does not match a prefix. -/
def integerMatch (s : Str) : Option (Str × Str) :=
  let signSplit : Str × Str :=
    match s with
    | c :: rest => if c = '+' ∨ c = '|' ∨ c = '-' then ([c], rest) else ([], s)
    | [] => ([], s)
  let sign := signSplit.1
  let afterSign := signSplit.2
  let intDigits := afterSign.takeWhile Char.isDigit
  match afterSign.dropWhile Char.isDigit with
  | '.' :: afterDot =>
    let fracDigits := afterDot.takeWhile Char.isDigit
    if fracDigits = [] then none
    else some (sign ++ intDigits ++ '.' :: fracDigits,
               afterDot.dropWhile Char.isDigit)
  | _ => none

/-- Modelled from the spec: `cut_part_via_regex` lives in
`vkquick/ext/chatbot/filters/command/text_cutters/base.py`, which is not part
of the sources.  Per the spec (§3) it matches the compiled pattern against a
prefix of the remainder, yielding the parsed part plus the new remainder, and
Unmatched when the pattern does not match.  `Integer.cut_part` just applies
it to the fixed pattern above. -/
def integerCutPart (s : Str) : Option Str × Str :=
  match integerMatch s with
  | some (p, r) => (some p, r)
  | none => (none, s)

/-
The `List` combinator of `list_.py`.
-/

/-- Python `str.lstrip()` whitespace test (the ASCII whitespace characters;
the inputs of the claims use only the plain space). -/
def isPySpace (c : Char) : Bool :=
  c == ' ' || c == '\t' || c == '\n' || c == '\r' ||
    c == Char.ofNat 11 || c == Char.ofNat 12

/-- The loop guard of `List.cut_part`: the `while` continues while
`max_length is Ellipsis or len(values) < max_length`, so the maximum is
reached exactly when a bound is set and the count is not below it. -/
def atMaxLength (maxLen : Option Nat) (count : Nat) : Bool :=
  match maxLen with
  | none => false
  | some n => count ≥ n

/-- The loop body of `List.cut_part`, fuel-indexed to make the Python
`while` loop structurally recursive.  `acc` holds the accepted values in
reverse order.  One step: check the maximum, `lstrip` the remainder, run the
inner cutter; on a match append and continue; on Unmatched stop with
`Matched` when `len(values) > min_length` (the strict comparison of line 29
of `list_.py`) and with Unmatched otherwise — in both cases handing back the
remainder as the failed inner attempt left it. -/
def listCutAux {α : Type} (elem : Str → Option α × Str)
    (minLen : Nat) (maxLen : Option Nat) :
    Nat → Str → List α → Option (List α) × Str
  | 0, rem, _ => (none, rem)
  | fuel + 1, rem, acc =>
    if atMaxLength maxLen acc.length then (some acc.reverse, rem)
    else
      let rem1 := rem.dropWhile isPySpace
      match elem rem1 with
      | (some v, rem2) => listCutAux elem minLen maxLen fuel rem2 (v :: acc)
      | (none, rem2) =>
        if acc.length > minLen then (some acc.reverse, rem2)
        else (none, rem2)

/-- `List.cut_part`.  The fuel `s.length + 1` is enough for every inner
cutter that consumes at least one character per accepted element. -/
def listCutPart {α : Type} (elem : Str → Option α × Str)
    (minLen : Nat) (maxLen : Option Nat) (s : Str) : Option (List α) × Str :=
  listCutAux elem minLen maxLen (s.length + 1) s []

/-- A sample inner element for the `List` combinator theorems: a run of one
or more ASCII digits parsed as a number, Unmatched (with the input returned
unchanged) when the string does not start with a digit. -/
def natDigitsCut (s : Str) : Option Nat × Str :=
  let ds := s.takeWhile Char.isDigit
  if ds = [] then (none, s)
  else (some (ds.foldl (fun n c => 10 * n + (c.toNat - 48)) 0),
        s.dropWhile Char.isDigit)

/-- `SimplifiedTextArgument.cut_part` as written: the constructor stores
nothing (`__init__` is a `...`/TODO stub) and `cut_part` ignores the
configured pattern, matching the fixed pattern `.+` with `re.DOTALL` — the
whole remainder whenever it is non-empty — with `group(0)` as the value. -/
def simplifiedCutPart (_rePattern : Str) (s : Str) : Option Str × Str :=
  match s with
  | [] => (none, [])
  | _ => (some s, [])

/-
The dispatcher of `bot.py`.

`Bot.pass_event_trough_commands` creates one task per registered command and
joins them with `asyncio.gather(*tasks)`.  `Command.handle_event` is not part
of the sources; a dispatch unit is therefore modelled abstractly as a
function from the command to its outcome.
-/

/-- Modelled from the spec: one completion step of the cooperative scheduler
(§5).  When the unit of index `i` completes, its `HandlingStatus` is stored
in the result slot of index `i` — `asyncio.gather` keys results by the
position of the awaitable, not by completion time. -/
def completeOne {κ σ : Type} (f : κ → σ) (cmds : List κ)
    (slots : List (Option σ)) (i : Nat) : List (Option σ) :=
  match cmds.get? i with
  | some c => slots.set i (some (f c))
  | none => slots

/-- Modelled from the spec: the barrier/join of a dispatch batch (§4.3).
The units complete in the arbitrary order `order`; the joined output is the
slot list read in registry order. -/
def runBatch {κ σ : Type} (f : κ → σ) (cmds : List κ)
    (order : List Nat) : List (Option σ) :=
  order.foldl (completeOne f cmds) (List.replicate cmds.length none)

/-- What one dispatch batch leaves behind, as observable from
`pass_event_trough_commands`: whether the event loop crashed, whether a
traceback was printed (`traceback.print_exc()` of the `except` branch), and
which status list — if any — was handed to the debugger/post-event signal
(the `else` branch). -/
structure BatchReport (σ : Type) where
  loopCrashed : Bool
  tracebackPrinted : Bool
  delivered : Option (List σ)
deriving DecidableEq, Repr

/-- Modelled from the spec: `asyncio.gather` over already-determined unit
outcomes — the list of results when every unit succeeded, otherwise the
first raised exception. -/
def gatherExcept {ε σ : Type} : List (Except ε σ) → Except ε (List σ)
  | [] => .ok []
  | u :: us =>
    match u with
    | .error e => .error e
    | .ok v =>
      match gatherExcept us with
      | .error e => .error e
      | .ok vs => .ok (v :: vs)

/-- Whether a dispatch unit raised outside the reaction-isolation boundary. -/
def isErr {ε σ : Type} : Except ε σ → Bool
  | .error _ => true
  | .ok _ => false

/-- The value of a successful dispatch unit. -/
def okValue {ε σ : Type} : Except ε σ → Option σ
  | .error _ => none
  | .ok v => some v

/-- `Bot.pass_event_trough_commands`, lines 220–231 of `bot.py`: gather the
unit outcomes under `try`; on an exception print the traceback and fall
through (the event loop survives, nothing is delivered); otherwise run the
debugger and the `POST_EVENT_HANDLING` signal with the gathered statuses. -/
def passEventTroughCommands {ε σ : Type} (units : List (Except ε σ)) :
    BatchReport σ :=
  match gatherExcept units with
  | .error _ =>
    { loopCrashed := false, tracebackPrinted := true, delivered := none }
  | .ok sts =>
    { loopCrashed := false, tracebackPrinted := false, delivered := some sts }

/-
Helper lemmas about case-insensitive literal matching.
-/

lemma foldPref_refl (a : Str) : foldPref a a = true := by
  induction a with
  | nil => rfl
  | cons c a ih => simp [foldPref, ih]

lemma foldStr_length (s : Str) : (foldStr s).length = s.length := by
  simp [foldStr]

lemma foldPref_congr (b : Str) :
    ∀ s t : Str, foldStr s = foldStr t → foldPref b s = foldPref b t := by
  induction b with
  | nil => intro s t _; rfl
  | cons c b ih =>
    intro s t h
    cases s with
    | nil => cases t with
      | nil => rfl
      | cons d t => simp [foldStr] at h
    | cons x s =>
      cases t with
      | nil => simp [foldStr] at h
      | cons y t =>
        simp only [foldStr, List.map_cons, List.cons.injEq] at h
        simp [foldPref, h.1, ih s t h.2]

lemma foldPref_both (a : Str) :
    ∀ s b : Str, foldPref a s = true → foldPref b s = true →
      a.length ≤ b.length → foldPref a b = true := by
  induction a with
  | nil => intro s b _ _ _; rfl
  | cons x a ih =>
    intro s b ha hb hlen
    cases s with
    | nil => simp [foldPref] at ha
    | cons y s =>
      cases b with
      | nil => simp at hlen
      | cons z b =>
        simp only [foldPref, Bool.and_eq_true, beq_iff_eq] at ha hb ⊢
        refine ⟨ha.1.trans hb.1.symm, ih s b ha.2 hb.2 ?_⟩
        simpa using hlen

lemma firstAliasMatch_mem {L : List Str} {s a r : Str}
    (h : firstAliasMatch L s = some (a, r)) :
    a ∈ L ∧ foldPref a s = true ∧ r = s.drop a.length := by
  induction L with
  | nil => simp [firstAliasMatch] at h
  | cons c rest ih =>
    by_cases hc : foldPref c s = true
    · simp only [firstAliasMatch, hc, if_pos, Option.some.injEq, Prod.mk.injEq] at h
      obtain ⟨rfl, rfl⟩ := h
      exact ⟨List.mem_cons_self _ _, hc, rfl⟩
    · simp only [firstAliasMatch, hc, if_neg, Bool.not_eq_true] at h
      rcases ih h with ⟨hmem, hf, hr⟩
      exact ⟨List.mem_cons_of_mem _ hmem, hf, hr⟩

lemma firstAliasMatch_none_iff {L : List Str} {s : Str} :
    firstAliasMatch L s = none ↔ ∀ b ∈ L, foldPref b s = false := by
  induction L with
  | nil => simp [firstAliasMatch]
  | cons c rest ih =>
    by_cases hc : foldPref c s = true
    · simp [firstAliasMatch, hc]
    · have hc' : foldPref c s = false := by
        revert hc; cases foldPref c s <;> simp
      have hstep : firstAliasMatch (c :: rest) s = firstAliasMatch rest s := by
        simp [firstAliasMatch, hc']
      rw [hstep, ih]
      constructor
      · intro h b hb
        rcases List.mem_cons.mp hb with rfl | hb
        · exact hc'
        · exact h b hb
      · intro h b hb
        exact h b (List.mem_cons_of_mem _ hb)

lemma firstAliasMatch_isSome {L : List Str} {s a : Str}
    (hmem : a ∈ L) (ha : foldPref a s = true) :
    ∃ c r, firstAliasMatch L s = some (c, r) := by
  cases h : firstAliasMatch L s with
  | none =>
    have := firstAliasMatch_none_iff.mp h a hmem
    rw [ha] at this
    cases this
  | some p =>
    obtain ⟨c, r⟩ := p
    exact ⟨c, r, rfl⟩

lemma firstAliasMatch_longest {L : List Str} {s a r : Str}
    (hns : noShadow L = true) (h : firstAliasMatch L s = some (a, r)) :
    ∀ b ∈ L, foldPref b s = true → b.length ≤ a.length := by
  induction L with
  | nil => simp [firstAliasMatch] at h
  | cons c rest ih =>
    simp only [noShadow, Bool.and_eq_true, List.all_eq_true] at hns
    by_cases hc : foldPref c s = true
    · simp only [firstAliasMatch, hc, if_pos, Option.some.injEq, Prod.mk.injEq] at h
      intro b hb hbs
      rcases List.mem_cons.mp hb with hb | hb
      · subst hb; rw [h.1]
      · by_contra hgt
        push_neg at hgt
        rw [← h.1] at hgt
        have hpCb : foldPref c b = true :=
          foldPref_both c s b hc hbs (Nat.le_of_lt hgt)
        have := hns.1 b hb
        rw [properFoldPrefOf] at this
        simp [hpCb, hgt] at this
    · simp only [firstAliasMatch, hc, if_neg, Bool.not_eq_true] at h
      intro b hb hbs
      rcases List.mem_cons.mp hb with hb | hb
      · subst hb; exact absurd hbs hc
      · exact ih hns.2 h b hb hbs

/-
Helper lemmas describing `Bool.cut_part` through `firstAliasMatch`.
-/

lemma boolCutPart_of_true {m : BoolMatcher} {s a r : Str}
    (h : firstAliasMatch m.trueAliases s = some (a, r)) :
    boolCutPart m s = (some true, r) := by
  simp [boolCutPart, cutPartLite, h]

lemma boolCutPart_of_false {m : BoolMatcher} {s a r : Str}
    (ht : firstAliasMatch m.trueAliases s = none)
    (h : firstAliasMatch m.falseAliases s = some (a, r)) :
    boolCutPart m s = (some false, r) := by
  simp [boolCutPart, cutPartLite, ht, h]

lemma boolCutPart_of_none {m : BoolMatcher} {s : Str}
    (ht : firstAliasMatch m.trueAliases s = none)
    (hf : firstAliasMatch m.falseAliases s = none) :
    boolCutPart m s = (none, s) := by
  simp [boolCutPart, cutPartLite, ht, hf]

/-
Helper lemmas about the `List` combinator.
-/

lemma listCutAux_suffix {α : Type} (elem : Str → Option α × Str)
    (hsuf : ∀ t, (elem t).2 <:+ t) (minLen : Nat) (maxLen : Option Nat) :
    ∀ fuel rem acc, (listCutAux elem minLen maxLen fuel rem acc).2 <:+ rem := by
  intro fuel
  induction fuel with
  | zero => intro rem acc; exact List.suffix_rfl
  | succ fuel ih =>
    intro rem acc
    rw [listCutAux]
    by_cases hmax : atMaxLength maxLen acc.length = true
    · simp only [hmax, if_pos]
      exact List.suffix_rfl
    · simp only [hmax, if_neg, Bool.not_eq_true]
      have hstrip : rem.dropWhile isPySpace <:+ rem :=
        List.dropWhile_suffix isPySpace
      cases helem : elem (rem.dropWhile isPySpace) with
      | mk v rem2 =>
        have hrem2 : rem2 <:+ rem := by
          have := hsuf (rem.dropWhile isPySpace)
          rw [helem] at this
          exact this.trans hstrip
        cases v with
        | some v =>
          simp only []
          exact (ih rem2 (v :: acc)).trans hrem2
        | none =>
          by_cases hmin : acc.length > minLen
          · simp [hmin, hrem2]
          · simp [hmin, hrem2]

lemma natDigitsCut_suffix (t : Str) : (natDigitsCut t).2 <:+ t := by
  rw [natDigitsCut]
  by_cases h : t.takeWhile Char.isDigit = []
  · simp only [h, if_pos]
    exact List.suffix_rfl
  · simp only [h, if_neg]
    exact List.dropWhile_suffix Char.isDigit

/-
Helper lemmas about the dispatch batch.
-/

lemma completeOne_length {κ σ : Type} (f : κ → σ) (cmds : List κ)
    (slots : List (Option σ)) (i : Nat) :
    (completeOne f cmds slots i).length = slots.length := by
  rw [completeOne]
  cases cmds.get? i <;> simp

lemma foldl_completeOne {κ σ : Type} (f : κ → σ) (cmds : List κ) :
    ∀ (order : List Nat) (slots : List (Option σ)),
      slots.length = cmds.length →
      (∀ i, i < cmds.length → i ∈ order ∨
        slots[i]? = (cmds[i]?).map (fun c => some (f c))) →
      order.foldl (completeOne f cmds) slots =
        cmds.map (fun c => some (f c)) := by
  intro order
  induction order with
  | nil =>
    intro slots hlen hfill
    rw [List.foldl_nil]
    apply List.ext_getElem?
    intro i
    by_cases hi : i < cmds.length
    · rcases hfill i hi with h | h
      · cases h
      · rw [h]
        cases hc : cmds[i]? <;> simp [hc, List.getElem?_map]
    · push_neg at hi
      rw [List.getElem?_eq_none (by simpa [hlen] using hi),
        List.getElem?_eq_none (by simpa using hi)]
  | cons j rest ih =>
    intro slots hlen hfill
    rw [List.foldl_cons]
    apply ih
    · rw [completeOne_length, hlen]
    · intro i hi
      by_cases hij : i = j
      · subst hij
        right
        have hilen : i < slots.length := by rw [hlen]; exact hi
        rw [completeOne]
        have hc : cmds.get? i = some cmds[i] := by
          rw [List.get?_eq_getElem?, List.getElem?_eq_getElem hi]
        rw [hc]
        rw [List.getElem?_set_self hilen]
        rw [List.getElem?_eq_getElem hi]
        simp
      · rcases hfill i hi with h | h
        · rcases List.mem_cons.mp h with h' | h'
          · exact absurd h' hij
          · exact Or.inl h'
        · right
          rw [completeOne]
          cases hc : cmds.get? j with
          | none => rw [h]
          | some c =>
            rw [List.getElem?_set_ne (fun he => hij he.symm), h]

lemma gatherExcept_of_all_ok {ε σ : Type} (units : List (Except ε σ))
    (h : units.any isErr = false) :
    gatherExcept units = .ok (units.filterMap okValue) := by
  induction units with
  | nil => rfl
  | cons u us ih =>
    cases u with
    | error e => simp [isErr] at h
    | ok v =>
      simp only [List.any_cons, Bool.or_eq_false_iff] at h
      rw [gatherExcept, ih h.2]
      simp [okValue]

lemma gatherExcept_of_err {ε σ : Type} (units : List (Except ε σ))
    (h : units.any isErr = true) :
    ∃ e, gatherExcept units = .error e := by
  induction units with
  | nil => simp [List.any_nil] at h
  | cons u us ih =>
    cases u with
    | error e => exact ⟨e, rfl⟩
    | ok v =>
      simp only [List.any_cons, isErr, Bool.false_or] at h
      rcases ih h with ⟨e, he⟩
      exact ⟨e, by rw [gatherExcept, he]⟩

/-
The claims.
-/

/-- C1: the spec states that an early stop of the `List` matcher after
exactly `min_length` accepted elements is `Matched` (count ≥ `min_length`).
`List.cut_part` (line 29 of `list_.py`) accepts an early stop only when
`len(values) > min_length`, contradicting the source's own `# >=` comment and
`usage_description`.  Evaluated at the failing input: with `min_length = 2`,
`max_length = 5`, the input `"1 2 x"` — exactly two well-formed elements and
non-matching trailing text — yields `Unmatched`, while one extra element is
accepted as `Matched`. -/
theorem c1_list_min_length_strict_comparison :
    listCutPart natDigitsCut 2 (some 5) ("1 2 x".data) = (none, "x".data) ∧
    listCutPart natDigitsCut 2 (some 5) ("1 2 3 x".data) =
      (some [1, 2, 3], "x".data) := by
  constructor
  · decide
  · decide

/-- C2 counterexample: with `min_length = 2` the input `" 1 x"` holds fewer
than two well-formed elements, and `List.cut_part` returns `Unmatched` with
the remainder `"x"` — the string as the failed attempt left it — which is
not the original input `" 1 x"`. -/
theorem c2_counterexample :
    listCutPart natDigitsCut 2 none (" 1 x".data) = (none, "x".data) ∧
    "x".data ≠ " 1 x".data := by
  constructor
  · decide
  · decide

/-- C2 (amended): when the `List` matcher returns `Unmatched`, the returned
remainder is the remainder at the point of failure — a suffix of the
original input reflecting the stripped whitespace and the consumed
elements — not necessarily the original input itself.  The hypothesis says
the inner cutter hands back suffixes of its input, as every cutter of the
repository does. -/
theorem c2_list_unmatched_remainder_suffix {α : Type}
    (elem : Str → Option α × Str) (hsuf : ∀ t, (elem t).2 <:+ t)
    (minLen : Nat) (maxLen : Option Nat) (s r : Str)
    (hun : listCutPart elem minLen maxLen s = (none, r)) :
    r <:+ s := by
  have h := listCutAux_suffix elem hsuf minLen maxLen (s.length + 1) s []
  rw [listCutPart] at hun
  rw [hun] at h
  exact h

/-- C2 witness: the amended statement applied to the digit-run element at
the concrete input `" 1 x"`. -/
theorem c2_witness : ("x".data) <:+ (" 1 x".data) :=
  c2_list_unmatched_remainder_suffix natDigitsCut natDigitsCut_suffix
    2 none (" 1 x".data) ("x".data) (by decide)

/-- C3: the spec states the numeric matcher accepts an OPTIONAL fractional
part, so `"123"` should match.  The pattern `[+|-]?\d*(?:\.\d+)` of
`float_.py` makes the dot-and-digits group mandatory: `"123"` is
`Unmatched`, while `"12.5"` matches.  Evaluated at the failing input. -/
theorem c3_integer_pattern_requires_fraction :
    integerCutPart ("123".data) = (none, "123".data) ∧
    integerCutPart ("12.5".data) = (some ("12.5".data), []) := by
  constructor
  · decide
  · decide

/-- C4: the spec states the quick-build matcher applies its configured
pattern and extracts one capture, yielding `Unmatched` on inputs the pattern
does not match.  `SimplifiedTextArgument.__init__` is a TODO stub that
stores nothing, and `cut_part` always applies the fixed match-everything
pattern `.+` (DOTALL): with the configured pattern `\d+` the
non-matching input `"abc"` still comes out fully `Matched`, and the result
never depends on the configured pattern at all. -/
theorem c4_simplified_ignores_pattern :
    simplifiedCutPart ("\\d+".data) ("abc".data) = (some ("abc".data), []) ∧
    ∀ p q s : Str, simplifiedCutPart p s = simplifiedCutPart q s := by
  refine ⟨by decide, ?_⟩
  intro p q s
  cases s <;> rfl

/-- C5 (confirmed): one `HandlingStatus` slot per registered command, and
the joined output of the dispatch batch lists the statuses in registry
declaration order whenever every unit completes, whatever the completion
order `order` was: `asyncio.gather` keys results by task position. -/
theorem c5_dispatch_preserves_registry_order {κ σ : Type} (f : κ → σ)
    (cmds : List κ) (order : List Nat)
    (hall : ∀ i, i < cmds.length → i ∈ order) :
    runBatch f cmds order = cmds.map (fun c => some (f c)) := by
  rw [runBatch]
  apply foldl_completeOne
  · simp
  · intro i hi
    exact Or.inl (hall i hi)

/-- C5 witness: three commands completing in the order 3rd, 1st, 2nd still
come out in registry order. -/
theorem c5_witness :
    runBatch (fun s : Str => s.length)
      ["a".data, "bb".data, "ccc".data] [2, 0, 1] =
      [some 1, some 2, some 3] :=
  c5_dispatch_preserves_registry_order
    (fun s : Str => s.length) ["a".data, "bb".data, "ccc".data] [2, 0, 1]
    (by decide)

/-- C6 counterexample: a batch of three units whose second raises.  The
`except` branch of `pass_event_trough_commands` prints the traceback and
returns: the statuses of the two non-failing units are NOT handed to the
debugger or the `POST_EVENT_HANDLING` signal — `delivered = none` — though
the claim requires them to still be delivered. -/
theorem c6_counterexample :
    passEventTroughCommands
        [Except.ok 1, Except.error "boom", Except.ok 3] =
      { loopCrashed := false, tracebackPrinted := true, delivered := none } := by
  decide

/-- C6 (amended): a dispatch unit raising outside the reaction-isolation
boundary never crashes the event loop and is always surfaced via
`traceback.print_exc()`, but the whole batch's statuses — the non-failing
commands' included — are then dropped: downstream delivery happens exactly
when no unit raised. -/
theorem c6_batch_error_surfaced_but_nothing_delivered {ε σ : Type}
    (units : List (Except ε σ)) :
    (passEventTroughCommands units).loopCrashed = false ∧
    (passEventTroughCommands units).tracebackPrinted = units.any isErr ∧
    (passEventTroughCommands units).delivered =
      (if units.any isErr then none else some (units.filterMap okValue)) := by
  by_cases h : units.any isErr = true
  · rcases gatherExcept_of_err units h with ⟨e, he⟩
    simp [passEventTroughCommands, he, h]
  · have h' : units.any isErr = false := by
      revert h
      cases units.any isErr <;> simp
    rw [passEventTroughCommands, gatherExcept_of_all_ok units h']
    simp [h']

/-- C7 counterexample: on the input `"неправда"` the default matcher
consumes the built-in alias `"н"` — the false alternation tries its
alternatives in declaration order and `"н"` precedes `"неправда"` — leaving
`"еправда"`, although the strictly longer alias `"неправда"` also matches
the input's front, so the longest-matching alternative is NOT consumed. -/
theorem c7_counterexample :
    boolCutPart (mkBool [] []) ("неправда".data) =
        (some false, "еправда".data) ∧
    "неправда".data ∈ (mkBool [] []).falseAliases ∧
    foldPref ("неправда".data) ("неправда".data) = true ∧
    "еправда".data ≠ ([] : Str) := by
  refine ⟨by decide, by decide, by decide, by decide⟩

/-- C7 (amended): `Bool.cut_part` consumes the FIRST matching alternative in
declaration order, not the longest; since no built-in True alias is an
earlier, strictly shorter front part of another, for the True set the first
match is also the longest (the False set already violates this through
`"н"`/`"неправда"`); and when no alias of either set matches, the result is
`Unmatched` with the original input. -/
theorem c7_default_bool_longest_match (s : Str) :
    (∀ r : Str, boolCutPart (mkBool [] []) s = (some true, r) →
      ∃ a, a ∈ boolTrueStrs ∧ foldPref a s = true ∧ r = s.drop a.length ∧
        ∀ b ∈ boolTrueStrs, foldPref b s = true → b.length ≤ a.length) ∧
    ((∀ b ∈ boolTrueStrs ++ boolFalseStrs, foldPref b s = false) →
      boolCutPart (mkBool [] []) s = (none, s)) := by
  have htA : (mkBool [] []).trueAliases = boolTrueStrs := by
    simp [mkBool]
  have hfA : (mkBool [] []).falseAliases = boolFalseStrs := by
    simp [mkBool]
  constructor
  · intro r hres
    cases ht : firstAliasMatch (mkBool [] []).trueAliases s with
    | none =>
      cases hf : firstAliasMatch (mkBool [] []).falseAliases s with
      | none =>
        rw [boolCutPart_of_none ht hf] at hres
        simp at hres
      | some p =>
        obtain ⟨c, r'⟩ := p
        rw [boolCutPart_of_false ht hf] at hres
        simp at hres
    | some p =>
      obtain ⟨c, r'⟩ := p
      rw [boolCutPart_of_true ht] at hres
      have hr : r' = r := by
        simpa using hres
      subst hr
      rw [htA] at ht
      rcases firstAliasMatch_mem ht with ⟨hmem, hf, hr⟩
      exact ⟨c, hmem, hf, hr,
        firstAliasMatch_longest (by decide) ht⟩
  · intro hall
    have ht : firstAliasMatch (mkBool [] []).trueAliases s = none := by
      rw [htA, firstAliasMatch_none_iff]
      intro b hb
      exact hall b (List.mem_append_left _ hb)
    have hf : firstAliasMatch (mkBool [] []).falseAliases s = none := by
      rw [hfA, firstAliasMatch_none_iff]
      intro b hb
      exact hall b (List.mem_append_right _ hb)
    exact boolCutPart_of_none ht hf

/-- C7 witness: the amended statement applied at `"yes ok"`, where the
matcher consumes `"yes"` and `" ok"` remains. -/
theorem c7_witness :
    ∃ a, a ∈ boolTrueStrs ∧ foldPref a ("yes ok".data) = true ∧
      " ok".data = ("yes ok".data).drop a.length ∧
      ∀ b ∈ boolTrueStrs, foldPref b ("yes ok".data) = true →
        b.length ≤ a.length :=
  (c7_default_bool_longest_match ("yes ok".data)).1 (" ok".data) (by decide)

/-- C8 counterexample: for the alias `"true-not"` supplied in
`false_extension`, `cut_part` on that alias alone does not yield
`Matched(false, "")`: the true alternation is tried first and its built-in
alias `"true"` matches the alias's front, so the result is
`Matched(true, "-not")` — even the boolean value differs. -/
theorem c8_counterexample :
    boolCutPart (mkBool [] ["true-not".data]) ("true-not".data) =
        (some true, "-not".data) ∧
    "true-not".data ∈ (mkBool [] ["true-not".data]).falseAliases := by
  refine ⟨by decide, by decide⟩

/-- C8 (amended): for an alias `a` of `true_extension`, `cut_part` on any
letter-case variant `s` of `a` always yields `Matched(true, r)` for some
suffix `r` of `s`; the remainder is empty exactly under the extra condition
that every matching alternative of the true alternation has the alias's full
length (no earlier, shorter alternative shadows it).  For an alias of
`false_extension`, `Matched(false, "")` moreover needs that no true
alternative matches the alias's front at all. -/
theorem c8_extension_alias_match (te fe : List Str) (a s : Str)
    (hcase : foldStr s = foldStr a) :
    (a ∈ te → ∃ r, boolCutPart (mkBool te fe) s = (some true, r) ∧ r <:+ s) ∧
    (a ∈ te →
      (∀ b ∈ (mkBool te fe).trueAliases,
        foldPref b a = true → b.length = a.length) →
      boolCutPart (mkBool te fe) s = (some true, [])) ∧
    (a ∈ fe →
      (∀ b ∈ (mkBool te fe).trueAliases, foldPref b a = false) →
      (∀ b ∈ (mkBool te fe).falseAliases,
        foldPref b a = true → b.length = a.length) →
      boolCutPart (mkBool te fe) s = (some false, [])) := by
  have hsa : s.length = a.length := by
    have := foldStr_length s
    rw [hcase, foldStr_length] at this
    exact this.symm
  have hpa : foldPref a s = true := by
    rw [foldPref_congr a s a hcase]
    exact foldPref_refl a
  refine ⟨?_, ?_, ?_⟩
  · intro hmem
    have hmem' : a ∈ (mkBool te fe).trueAliases :=
      List.mem_append_right _ hmem
    rcases firstAliasMatch_isSome hmem' hpa with ⟨c, r, hm⟩
    refine ⟨r, boolCutPart_of_true hm, ?_⟩
    rcases firstAliasMatch_mem hm with ⟨_, _, hr⟩
    rw [hr]
    exact List.drop_suffix _ _
  · intro hmem hlen
    have hmem' : a ∈ (mkBool te fe).trueAliases :=
      List.mem_append_right _ hmem
    rcases firstAliasMatch_isSome hmem' hpa with ⟨c, r, hm⟩
    rcases firstAliasMatch_mem hm with ⟨hcmem, hcs, hr⟩
    have hca : foldPref c a = true := by
      rw [← foldPref_congr c s a hcase]
      exact hcs
    have hclen : c.length = a.length := hlen c hcmem hca
    have hrnil : r = [] := by
      rw [hr, hclen, ← hsa]
      exact List.drop_length s
    rw [← hrnil]
    exact boolCutPart_of_true hm
  · intro hmem htrue hlen
    have ht : firstAliasMatch (mkBool te fe).trueAliases s = none := by
      rw [firstAliasMatch_none_iff]
      intro b hb
      rw [foldPref_congr b s a hcase]
      exact htrue b hb
    have hmem' : a ∈ (mkBool te fe).falseAliases :=
      List.mem_append_right _ hmem
    rcases firstAliasMatch_isSome hmem' hpa with ⟨c, r, hm⟩
    rcases firstAliasMatch_mem hm with ⟨hcmem, hcs, hr⟩
    have hca : foldPref c a = true := by
      rw [← foldPref_congr c s a hcase]
      exact hcs
    have hclen : c.length = a.length := hlen c hcmem hca
    have hrnil : r = [] := by
      rw [hr, hclen, ← hsa]
      exact List.drop_length s
    rw [← hrnil]
    exact boolCutPart_of_false ht hm

/-- C8 witness: the amended statement applied to the unshadowed extension
alias `"zap"` at the upper-case input `"ZAP"`, giving `Matched(true, "")`. -/
theorem c8_witness :
    boolCutPart (mkBool ["zap".data] []) ("ZAP".data) = (some true, []) :=
  (c8_extension_alias_match ["zap".data] [] ("zap".data) ("ZAP".data)
    (by decide)).2.1 (by decide) (by decide)

/-- C10 (confirmed): whenever the true alternation matches a front part of
the input — in particular when the false alternation matches one too —
`Bool.cut_part` returns the value `true` with the true match's remainder:
the true regex is consulted first, the false one only after it fails, and
construction never checks the extended sets for overlap. -/
theorem c10_true_set_tried_first (te fe : List Str) (s a r : Str)
    (ht : firstAliasMatch (mkBool te fe).trueAliases s = some (a, r))
    (_hoverlap : ∃ b ∈ (mkBool te fe).falseAliases, foldPref b s = true) :
    boolCutPart (mkBool te fe) s = (some true, r) :=
  boolCutPart_of_true ht

/-- C10 witness: with `true_extension = ["ok"]` and
`false_extension = ["okay"]` both sets match a front of `"okay"`; the result
is `Matched(true, "ay")`. -/
theorem c10_witness :
    boolCutPart (mkBool ["ok".data] ["okay".data]) ("okay".data) =
      (some true, "ay".data) :=
  c10_true_set_tried_first ["ok".data] ["okay".data] ("okay".data)
    ("ok".data) ("ay".data) (by decide)
    ⟨"okay".data, by decide, by decide⟩

end Vkquick
